import Mathlib

/-!
Shallow embedding of the `js-collection` repository: the `MemoryCollection`
backend (src/memory.ts), the `Transaction` wrapper and its process-wide
registry (src/types.ts), and the `Select` query builder (src/select.ts).

JavaScript objects stored in a `MemoryCollection` are heap references: the
map, the results of `search`, and the snapshots captured by `Transaction`
all alias the same mutable record objects.  The embedding therefore models
a heap (`List Rec`, addresses are indices) explicitly; record field values
are modelled as immutable `Value` trees, since no code in the repository
mutates a nested object except through the top-level record it belongs to.
-/

namespace JsColl

/-- A JSON-like field value: the data stored in a record's fields. -/
inductive Value where
  | str : String → Value
  | int : Int → Value
  | boolV : Bool → Value
  | arr : List Value → Value
  | obj : List (String × Value) → Value

/-- The fields of a JS object: an insertion-ordered association list. -/
abbrev Fields := List (String × Value)

mutual

/-- Decidable equality on `Value`, by structural recursion (the nested
inductive prevents `deriving`). -/
def decV : (a b : Value) → Decidable (a = b)
  | .str a, .str b =>
    match String.decEq a b with
    | .isTrue h => .isTrue (by rw [h])
    | .isFalse h => .isFalse (fun hh => by cases hh; exact h rfl)
  | .int a, .int b =>
    match Int.decEq a b with
    | .isTrue h => .isTrue (by rw [h])
    | .isFalse h => .isFalse (fun hh => by cases hh; exact h rfl)
  | .boolV a, .boolV b =>
    match Bool.decEq a b with
    | .isTrue h => .isTrue (by rw [h])
    | .isFalse h => .isFalse (fun hh => by cases hh; exact h rfl)
  | .arr a, .arr b =>
    match decL a b with
    | .isTrue h => .isTrue (by rw [h])
    | .isFalse h => .isFalse (fun hh => by cases hh; exact h rfl)
  | .obj a, .obj b =>
    match decF a b with
    | .isTrue h => .isTrue (by rw [h])
    | .isFalse h => .isFalse (fun hh => by cases hh; exact h rfl)
  | .str _, .int _ => .isFalse nofun
  | .str _, .boolV _ => .isFalse nofun
  | .str _, .arr _ => .isFalse nofun
  | .str _, .obj _ => .isFalse nofun
  | .int _, .str _ => .isFalse nofun
  | .int _, .boolV _ => .isFalse nofun
  | .int _, .arr _ => .isFalse nofun
  | .int _, .obj _ => .isFalse nofun
  | .boolV _, .str _ => .isFalse nofun
  | .boolV _, .int _ => .isFalse nofun
  | .boolV _, .arr _ => .isFalse nofun
  | .boolV _, .obj _ => .isFalse nofun
  | .arr _, .str _ => .isFalse nofun
  | .arr _, .int _ => .isFalse nofun
  | .arr _, .boolV _ => .isFalse nofun
  | .arr _, .obj _ => .isFalse nofun
  | .obj _, .str _ => .isFalse nofun
  | .obj _, .int _ => .isFalse nofun
  | .obj _, .boolV _ => .isFalse nofun
  | .obj _, .arr _ => .isFalse nofun

/-- Decidable equality on lists of `Value`. -/
def decL : (a b : List Value) → Decidable (a = b)
  | [], [] => .isTrue rfl
  | [], _ :: _ => .isFalse nofun
  | _ :: _, [] => .isFalse nofun
  | a :: as, b :: bs =>
    match decV a b, decL as bs with
    | .isTrue h1, .isTrue h2 => .isTrue (by rw [h1, h2])
    | .isFalse h1, _ => .isFalse (fun hh => by cases hh; exact h1 rfl)
    | _, .isFalse h2 => .isFalse (fun hh => by cases hh; exact h2 rfl)

/-- Decidable equality on association lists of `Value`. -/
def decF : (a b : List (String × Value)) → Decidable (a = b)
  | [], [] => .isTrue rfl
  | [], _ :: _ => .isFalse nofun
  | _ :: _, [] => .isFalse nofun
  | (k, v) :: as, (k', v') :: bs =>
    match String.decEq k k', decV v v', decF as bs with
    | .isTrue h1, .isTrue h2, .isTrue h3 => .isTrue (by rw [h1, h2, h3])
    | .isFalse h1, _, _ => .isFalse (fun hh => by cases hh; exact h1 rfl)
    | _, .isFalse h2, _ => .isFalse (fun hh => by cases hh; exact h2 rfl)
    | _, _, .isFalse h3 => .isFalse (fun hh => by cases hh; exact h3 rfl)

end

instance : DecidableEq Value := decV

section AListOps

variable {κ α : Type} [DecidableEq κ]

/-- JS `Map.get` on an insertion-ordered association list. -/
def aGet (m : List (κ × α)) (k : κ) : Option α :=
  (m.find? (fun e => e.1 = k)).map (·.2)

/-- JS `Map.set`: overwrite the value of an existing key in place (keeping
its position in iteration order), otherwise append a new entry.  A JS map
never holds duplicate keys, so the in-place overwrite is the head-first
replacement below. -/
def aSet (m : List (κ × α)) (k : κ) (v : α) : List (κ × α) :=
  match m with
  | [] => [(k, v)]
  | e :: rest => if e.1 = k then (k, v) :: rest else e :: aSet rest k v

/-- JS `Map.delete`. -/
def aDel (m : List (κ × α)) (k : κ) : List (κ × α) :=
  m.filter (fun e => e.1 ≠ k)

end AListOps

/-- Look a key up in a JS object's fields (property read). -/
def lookupF (fs : Fields) (k : String) : Option Value := aGet fs k

/-- JS property write `o[k] = v`: overwrite an existing key in place
(keeping its position), otherwise append the new key at the end — the
same operation as `Map.set`. -/
def setF (fs : Fields) (k : String) (v : Value) : Fields := aSet fs k v

/-- `Object.assign(t, s)`: shallow-merge the fields of `s` into `t`, later
writes overwriting earlier ones on key collision. -/
def assignF (t s : Fields) : Fields := s.foldl (fun acc e => setF acc e.1 e.2) t

mutual

/-- Modelled from the spec: `deepAssign` of the "@heraclius/js-tools"
dependency (its source is not under src/) deep-merges the source value into
the target in place: when the old and the new value of a key are both
nested mappings they are merged recursively, key by key; every other value
(scalar or array) overwrites the old one wholesale. -/
def deepAssignV : Value → Value → Value
  | .obj tf, .obj sf => .obj (deepAssignGo tf sf)
  | _, s => s

/-- Walk the source's keys in order, writing each into the accumulated
target (merging recursively when both sides are nested mappings). -/
def deepAssignGo : Fields → Fields → Fields
  | acc, [] => acc
  | acc, (k, v) :: rest =>
    deepAssignGo (setF acc k (match lookupF acc k with
      | some old => deepAssignV old v
      | none => v)) rest

end

/-- `deepAssign` on two record field sets (both sides are JS objects). -/
def deepAssignTop (t s : Fields) : Fields :=
  match deepAssignV (.obj t) (.obj s) with
  | .obj r => r
  | _ => t

/-- A record object: the mandatory `_id` field (absent before first save)
kept apart from the remaining fields. -/
structure Rec where
  _id : Option String
  fields : Fields
deriving DecidableEq

instance : Inhabited Rec := ⟨⟨none, []⟩⟩

/-- Heap addresses: a stored record object is identified by its index in
the heap. -/
abbrev Addr := Nat

/-- `item._id` is falsy in JS exactly when the field is absent or holds
the empty string (`if (!item._id) item._id = v4()`). -/
def idFalsy : Option String → Bool
  | none => true
  | some s => s = ""

/-- The state of one `MemoryCollection` (src/memory.ts): the heap of
record objects, the insertion-ordered `_map` from `_id` to the stored
object, and the stream of UUIDs that `v4()` will return (`uuid` composed
with the count `next` of values already drawn). -/
structure MemState where
  heap : List Rec
  map : List (String × Addr)
  uuid : Nat → String
  next : Nat

/-- Dereference a heap address (addresses handed out by the model are
always in range; an out-of-range read yields the default record). -/
def derefD (h : List Rec) (a : Addr) : Rec := h.getD a default

/-- Mutate the record object stored at a heap address. -/
def heapSet (h : List Rec) (a : Addr) (r : Rec) : List Rec := h.set a r

/-- Modelled from the spec: predicate matching of "@heraclius/query" (its
source is not under src/) is the opaque external `matches(item,
condition) → bool` function, so a condition is embedded as the predicate
it denotes. -/
abbrev Cond := Rec → Bool

/-- Modelled from the spec: the id-set condition that `Transaction` builds
(`_id`/`$in`) matches exactly the records whose `_id` is in `ids`. -/
def idIn (ids : List String) : Cond := fun r =>
  match r._id with
  | some i => ids.contains i
  | none => false

/-- `MemoryCollection.getById`: `this._map.get(id)`; the result is a
reference to the live stored record object. -/
def memGetById (σ : MemState) (id : String) : Option Addr := aGet σ.map id

/-- The record value `getById` shows the caller, read off the heap. -/
def getByIdVal (σ : MemState) (id : String) : Option Rec :=
  (memGetById σ id).map (derefD σ.heap)

/-- `MemoryCollection.search`: iterate `_map.values()` in insertion order
and keep the records the condition matches.  The returned list holds
references to (addresses of) the live stored objects, not copies. -/
def memSearch (σ : MemState) (cond : Cond) : List Addr :=
  (σ.map.map (·.2)).filter (fun a => cond (derefD σ.heap a))

/-- `MemoryCollection.searchOne`: the first match in iteration order. -/
def memSearchOne (σ : MemState) (cond : Cond) : Option Addr :=
  (memSearch σ cond).head?

/-- `MemoryCollection.deleteById`: remove the map entry if one exists and
report whether a record existed. -/
def memDeleteById (σ : MemState) (id : String) : MemState × Bool :=
  match aGet σ.map id with
  | some _ => ({σ with map := aDel σ.map id}, true)
  | none => (σ, false)

/-- `MemoryCollection.delete`: `search(condition)`, then delete each
result's `_id` from the map; returns the matched references. -/
def memDelete (σ : MemState) (cond : Cond) : MemState × List Addr :=
  let rs := memSearch σ cond
  (rs.foldl (fun σ' a => {σ' with map := aDel σ'.map ((derefD σ'.heap a)._id.getD "")}) σ, rs)

/-- One step of `MemoryCollection.save`: `if (!item._id) item._id = v4()`
— mutating the passed object in place — then `this._map.set(item._id,
item)`. -/
def memSave1 (σ : MemState) (a : Addr) : MemState :=
  let r := derefD σ.heap a
  if idFalsy r._id then
    let u := σ.uuid σ.next
    {σ with heap := heapSet σ.heap a {r with _id := some u},
            map := aSet σ.map u a, next := σ.next + 1}
  else
    {σ with map := aSet σ.map (r._id.getD "") a}

/-- `MemoryCollection.save` over already-allocated item objects: process
them left to right; the returned array is the same references in input
order. -/
def memSave (σ : MemState) (addrs : List Addr) : MemState × List Addr :=
  (addrs.foldl memSave1 σ, addrs)

/-- Allocate a fresh record object for an item literal passed by the
caller. -/
def alloc (σ : MemState) (r : Rec) : MemState × Addr :=
  ({σ with heap := σ.heap ++ [r]}, σ.heap.length)

/-- Allocate a list of caller-passed item literals, in order. -/
def allocList (σ : MemState) : List Rec → MemState × List Addr
  | [] => (σ, [])
  | r :: rs =>
    let p1 := alloc σ r
    let p2 := allocList p1.1 rs
    (p2.1, p1.2 :: p2.2)

/-- `MemoryCollection.save` as invoked from application code, on item
literals. -/
def memSaveItems (σ : MemState) (items : List Rec) : MemState × List Addr :=
  let p := allocList σ items
  memSave p.1 p.2

/-- An argument to `update`: a partial record together with its mandatory
`_id`. -/
structure UpdItem where
  uid : String
  fields : Fields
deriving DecidableEq

/-- One step of `MemoryCollection.update`: look the target up by `_id`
(the error "Not found item in collection by id ..." is thrown when it is
absent), `deepAssign` the item into the stored object in place, and
re-`set` the map entry. -/
def memUpdate1 (σ : MemState) (it : UpdItem) : MemState × Option String :=
  match aGet σ.map it.uid with
  | none => (σ, some ("Not found item in collection by id " ++ it.uid))
  | some a =>
    let old := derefD σ.heap a
    let merged : Rec := ⟨some it.uid, deepAssignTop old.fields it.fields⟩
    ({σ with heap := heapSet σ.heap a merged, map := aSet σ.map it.uid a}, none)

/-- One iteration of the `update` loop: once an error has been thrown the
remaining items are not processed. -/
def memUpdateStep (acc : MemState × Option String) (it : UpdItem) :
    MemState × Option String :=
  match acc.2 with
  | some _ => acc
  | none => memUpdate1 acc.1 it

/-- `MemoryCollection.update`: process the items left to right; a throw
aborts the loop and propagates, leaving the earlier merges applied. -/
def memUpdate (σ : MemState) (items : List UpdItem) : MemState × Option String :=
  items.foldl memUpdateStep (σ, none)

/-- A compensation closure pushed onto `_rollbackFns` (src/types.ts).  The
closures capture references to record objects; in particular the `_id`s
that a save-compensation deletes by are only read when the closure runs. -/
inductive Comp where
  | deleteSaved (addrs : List Addr)
  | resave (addrs : List Addr)
deriving DecidableEq

/-- Run one compensation closure against the wrapped collection. -/
def applyComp (σ : MemState) : Comp → MemState
  | .deleteSaved addrs =>
    (memDelete σ (idIn (addrs.map (fun a => (derefD σ.heap a)._id.getD "")))).1
  | .resave addrs => (memSave σ addrs).1

/-- A `Transaction` object: its id, the collection it currently points at
(`coll` is an opaque collection reference, used by the registry layer),
`_rollbackFns`, `_begin`, and whether `_timeoutHandler` is armed. -/
structure TxnObj where
  tid : String
  coll : Nat
  fns : List Comp
  begun : Bool
  timer : Bool
deriving DecidableEq

/-- The process-wide registry `map` of src/types.ts. -/
abbrev Registry := List (String × TxnObj)

/-- `Transaction.begin`: a no-op when the timer is already armed;
otherwise mark the transaction active and arm the 30-second timer. -/
def txnBegin (t : TxnObj) : TxnObj :=
  if t.timer then t else {t with begun := true, timer := true}

/-- `Transaction.end`: mark inactive, remove the transaction from the
process-wide registry, cancel the timer.  `_rollbackFns` is untouched. -/
def txnEnd (t : TxnObj) (reg : Registry) : TxnObj × Registry :=
  ({t with begun := false, timer := false}, aDel reg t.tid)

/-- The `setTimeout` callback armed by `begin`: when the 30-second timer
fires it calls `this.end()` and logs a warning — nothing else. -/
def timerFire (t : TxnObj) (reg : Registry) : TxnObj × Registry := txnEnd t reg

/-- `Transaction.get` (static): return the registered transaction for the
id, constructing, registering and — through the constructor — `begin()`-ing
a new one when none is registered; either way the final assignment
re-points `transaction.collection` at the supplied collection. -/
def txnGet (id : String) (c : Nat) (reg : Registry) : TxnObj × Registry :=
  let p :=
    match aGet reg id with
    | some t => (t, reg)
    | none =>
      let t := txnBegin {tid := id, coll := c, fns := [], begun := false, timer := false}
      (t, aSet reg id t)
  let t' := {p.1 with coll := c}
  (t', aSet p.2 id t')

/-- A system: one transaction, the `MemoryCollection` it wraps, and the
process-wide registry. -/
structure Sys where
  mem : MemState
  txn : TxnObj
  reg : Registry

/-- `Transaction.save`: the caller's item literals are allocated, the
wrapped collection saves them, and — when the result is non-empty and
`_begin` holds — a closure deleting the result's `_id`s is pushed. -/
def sysSave (s : Sys) (items : List Rec) : Sys × List Addr :=
  let p := memSaveItems s.mem items
  let fns' :=
    if p.2.length ≠ 0 ∧ s.txn.begun then s.txn.fns ++ [Comp.deleteSaved p.2]
    else s.txn.fns
  ({s with mem := p.1, txn := {s.txn with fns := fns'}}, p.2)

/-- `Transaction.deleteById`: a missing id short-circuits to `true` with
no delegate call; a found record is captured for re-save (when `_begin`)
before the delegate delete runs. -/
def sysDeleteById (s : Sys) (id : String) : Sys × Bool :=
  match memGetById s.mem id with
  | some a =>
    let fns' := if s.txn.begun then s.txn.fns ++ [Comp.resave [a]] else s.txn.fns
    let p := memDeleteById s.mem id
    ({s with mem := p.1, txn := {s.txn with fns := fns'}}, p.2)
  | none => (s, true)

/-- `Transaction.delete`: delegate, then log a re-save of the deleted
references when any record matched and `_begin` holds. -/
def sysDelete (s : Sys) (cond : Cond) : Sys × List Addr :=
  let p := memDelete s.mem cond
  let fns' :=
    if p.2.length ≠ 0 ∧ s.txn.begun then s.txn.fns ++ [Comp.resave p.2]
    else s.txn.fns
  ({s with mem := p.1, txn := {s.txn with fns := fns'}}, p.2)

/-- `Transaction.update`: snapshot the targeted records by a search over
the id set — the search yields live references — delegate the update, and
only then, when it did not throw, log a re-save of the snapshot. -/
def sysUpdate (s : Sys) (items : List UpdItem) : Sys × Option String :=
  let snapshot := memSearch s.mem (idIn (items.map (·.uid)))
  let p := memUpdate s.mem items
  match p.2 with
  | some e => ({s with mem := p.1}, some e)
  | none =>
    let fns' :=
      if snapshot.length ≠ 0 ∧ s.txn.begun then s.txn.fns ++ [Comp.resave snapshot]
      else s.txn.fns
    ({s with mem := p.1, txn := {s.txn with fns := fns'}}, none)

/-- The indexed loop of `Transaction.rollback`: with `k` compensations
still to run, apply `fns[k-1]` and continue downwards. -/
def runFrom (fns : List Comp) (σ : MemState) : Nat → MemState
  | 0 => σ
  | k + 1 => runFrom fns (applyComp σ (fns.getD k (.resave []))) k

/-- `Transaction.rollback`: run the compensations from index
`length - 1` down to `0`, each awaited before the next, clear
`_rollbackFns`, then call `end()`. -/
def sysRollback (s : Sys) : Sys :=
  let σ' := runFrom s.txn.fns s.mem s.txn.fns.length
  let p := txnEnd {s.txn with fns := []} s.reg
  {mem := σ', txn := p.1, reg := p.2}

/-- The timer of `s.txn` firing, at system level: the callback only calls
`end()` (and warns); it never touches the wrapped collection or the log. -/
def sysTimerFire (s : Sys) : Sys :=
  let p := timerFire s.txn s.reg
  {mem := s.mem, txn := p.1, reg := p.2}

/-- The record set of a collection: its map read through the heap. -/
def recordSet (σ : MemState) : List (String × Rec) :=
  σ.map.map (fun e => (e.1, derefD σ.heap e.2))

/-- The ids present in a map. -/
def mapIds (m : List (String × Addr)) : List String := m.map (·.1)

/-- Well-formedness of a collection state: every map entry points at a
live heap cell whose record carries exactly the entry's id. -/
def Coherent (σ : MemState) : Prop :=
  ∀ e ∈ σ.map, e.2 < σ.heap.length ∧ (derefD σ.heap e.2)._id = some e.1

/-- A transaction freshly constructed over a collection (the constructor
calls `begin()`), as in `new Transaction(id, collection)`. -/
def initSys (σ : MemState) (tid : String) : Sys :=
  {mem := σ,
   txn := txnBegin {tid := tid, coll := 0, fns := [], begun := false, timer := false},
   reg := []}

/-- Run a sequence of `save` calls through the transaction. -/
def runSaves (s : Sys) : List (List Rec) → Sys
  | [] => s
  | items :: rest => runSaves (sysSave s items).1 rest

/-- A `Select` builder instance (src/select.ts): the source collection,
the optional condition, and the insertion-ordered `_joinMap` and
`_exposeMap`.  Collections are identified by an opaque reference; a join
callback turns the source record into the fetched value (one record or an
array of them), an expose callback turns a fetched value into the partial
result object to merge. -/
structure SelectM where
  _from : Nat
  cond : Option (Value → Bool)
  joinMap : List (Nat × (Value → Value))
  exposeMap : List (Nat × (Value → Value))

/-- The own enumerable properties that `Object.assign` copies from a
value: an object contributes its fields, an array its index keys, a
string its character positions, and other primitives nothing. -/
def ownFields : Value → Fields
  | .obj fs => fs
  | .arr vs => vs.enum.map (fun p => (toString p.1, p.2))
  | .str cs => cs.toList.enum.map (fun p => (toString p.1, .str (toString p.2)))
  | _ => []

/-- `Object.assign(t, x)` for a possibly-undefined `x` (JS silently
ignores `undefined`, as happens when a `Map.get` misses). -/
def assignVOpt (t : Fields) : Option Value → Fields
  | none => t
  | some v => assignF t (ownFields v)

/-- `Select.from` together with the private constructor: record the source
and expose it with the identity projection `(value) => value`. -/
def selectFrom (c : Nat) : SelectM :=
  { _from := c, cond := none, joinMap := [], exposeMap := aSet [] c (fun v => v) }

/-- `Select.where`: set or replace the source-side condition. -/
def selectWhere (s : SelectM) (c : Option (Value → Bool)) : SelectM :=
  {s with cond := c}

/-- `Select.join`: register the joined collection's fetch callback and
(re)set its projection to the identity. -/
def selectJoin (s : SelectM) (c : Nat) (cb : Value → Value) : SelectM :=
  {s with joinMap := aSet s.joinMap c cb, exposeMap := aSet s.exposeMap c (fun v => v)}

/-- `Select.expose`: override how a collection's fetched value is merged
into the output. -/
def selectExpose (s : SelectM) (c : Nat) (cb : Value → Value) : SelectM :=
  {s with exposeMap := aSet s.exposeMap c cb}

/-- `Select._handleFromValue`: `Object.assign` of the source's projection
of the item onto the empty object, then for each joined collection in
`_joinMap` iteration order: fetch, project through `_exposeMap`, merge. -/
def handleFromValue (s : SelectM) (item : Value) : Fields :=
  let result := assignVOpt [] ((aGet s.exposeMap s._from).map (fun f => f item))
  s.joinMap.foldl (fun res p =>
    let value := p.2 item
    let exposedValue := (aGet s.exposeMap p.1).map (fun f => f value)
    assignVOpt res exposedValue) result

/-- The source collection's `searchOne(condition?)`, per the collection
contract: the first record in iteration order that the condition matches,
an absent condition matching everything. -/
def searchOneL (records : List Value) (cond : Option (Value → Bool)) : Option Value :=
  records.find? (fun v => match cond with | some f => f v | none => true)

/-- `Select.toOne`: `searchOne` on the source; an absent match yields
`undefined`, otherwise the one result object `_handleFromValue` builds. -/
def toOne (s : SelectM) (records : List Value) : Option Fields :=
  match searchOneL records s.cond with
  | none => none
  | some v => some (handleFromValue s v)

/-- The projection registered for a collection (total: §4.2 of the spec
presupposes one, the identity being the default). -/
def projOf (s : SelectM) (c : Nat) : Value → Value :=
  (aGet s.exposeMap c).getD (fun v => v)

/-- The one result object as §4.2 words it: start from the empty object,
shallow-merge the source's projection of the source record, then for each
joined collection in join-registration order apply its fetch callback to
the source record, apply that collection's projection to the fetched
value, and shallow-merge the outcome into the result. -/
def specBuildOne (s : SelectM) (item : Value) : Fields :=
  s.joinMap.foldl
    (fun res p => assignF res (ownFields (projOf s p.1 (p.2 item))))
    (assignF [] (ownFields (projOf s s._from item)))

/-- What the builder API maintains: the source and every joined collection
have an `_exposeMap` entry. -/
def SelWF (s : SelectM) : Prop :=
  s._from ∈ s.exposeMap.map (·.1) ∧ ∀ p ∈ s.joinMap, p.1 ∈ s.exposeMap.map (·.1)

/-- An empty `MemoryCollection` with a fixed UUID stream. -/
def emptyMem : MemState := ⟨[], [], fun n => "u" ++ toString n, 0⟩

/-- The pre-update record of the C2 scenario. -/
def johnRec : Rec := ⟨some "1", [("name", .str "John"), ("age", .int 30)]⟩

/-- A collection holding exactly `johnRec` under id "1". -/
def johnMem : MemState := ⟨[johnRec], [("1", 0)], fun n => "u" ++ toString n, 0⟩

/-- The effect of saving one item literal: allocate it, then run the
`save` loop body on it. -/
def saveStep (σ : MemState) (r : Rec) : MemState :=
  memSave1 {σ with heap := σ.heap ++ [r]} σ.heap.length

/-- How many of the first `j` items draw a fresh UUID (falsy `_id`). -/
def falsyCountBefore (items : List Rec) (j : Nat) : Nat :=
  ((items.take j).filter (fun r => idFalsy r._id)).length

/-- The id an input item ends up stored under: its own `_id` when truthy,
the next undrawn UUID from the stream otherwise. -/
def effId (σ : MemState) (items : List Rec) (j : Nat) : String :=
  if idFalsy (items.getD j default)._id then σ.uuid (σ.next + falsyCountBefore items j)
  else (items.getD j default)._id.getD ""

/-- An input item with its `_id` filled in: exactly what `save` stores and
returns for it — wholesale, never merged with a previous record. -/
def filledRec (σ : MemState) (items : List Rec) (j : Nat) : Rec :=
  ⟨some (effId σ items j), (items.getD j default).fields⟩

/-- The ids a compensation closure would delete by, as read off the heap
at the moment it runs (`result.map(item => item._id)` inside the closure
body). -/
def compIds (h : List Rec) : Comp → List String
  | .deleteSaved addrs => addrs.map (fun a => (derefD h a)._id.getD "")
  | .resave _ => []

/-- All ids the closures of a log would delete by. -/
def compIdsAll (h : List Rec) : List Comp → List String
  | [] => []
  | c :: cs => compIds h c ++ compIdsAll h cs

/-- The save-phase invariant of the C1 argument, tying a system state back
to the collection state `σ0` from before the transaction began: the old
heap cells are untouched, ids present before the transaction still map to
their old records, every id added since is covered by a logged
delete-compensation, every logged compensation is a delete of valid
references whose ids are all new, the transaction is active, the UUID
stream is unchanged, and the map stays coherent. -/
def SaveInv (σ0 : MemState) (s : Sys) : Prop :=
  s.mem.heap.take σ0.heap.length = σ0.heap ∧
  (∀ id, id ∈ mapIds σ0.map → aGet s.mem.map id = aGet σ0.map id) ∧
  (∀ id, id ∉ mapIds σ0.map → aGet s.mem.map id ≠ none →
    id ∈ compIdsAll s.mem.heap s.txn.fns) ∧
  (∀ c ∈ s.txn.fns,
    (∃ addrs, c = Comp.deleteSaved addrs ∧ ∀ a ∈ addrs, a < s.mem.heap.length) ∧
    ∀ i ∈ compIds s.mem.heap c, i ∉ mapIds σ0.map) ∧
  s.txn.begun = true ∧
  s.mem.uuid = σ0.uuid ∧
  Coherent s.mem

/-- The items of the C10 witness run: one overwrite of the existing id
"1", one item without `_id`. -/
def c10items : List Rec := [⟨some "1", [("x", .int 5)]⟩, ⟨none, [("y", .int 7)]⟩]

/-- A concrete query: source collection 0, one join against collection 1
with a custom projection. -/
def c9sel : SelectM :=
  selectExpose
    (selectJoin (selectFrom 0) 1 (fun _ => .obj [("p", .int 7)]))
    1 (fun v => .obj [("posts", v)])

/-- Concrete source records for the query above. -/
def c9recs : List Value := [.obj [("name", .str "Alice")]]

section AListLemmas

variable {κ α : Type} [DecidableEq κ]

theorem aGet_nil (k : κ) : aGet ([] : List (κ × α)) k = none := rfl

theorem aGet_cons (e : κ × α) (m : List (κ × α)) (k : κ) :
    aGet (e :: m) k = if e.1 = k then some e.2 else aGet m k := by
  by_cases h : e.1 = k <;> simp [aGet, List.find?_cons, h]

theorem aGet_isSome_of_mem_keys (m : List (κ × α)) (k : κ)
    (h : k ∈ m.map (·.1)) : ∃ v, aGet m k = some v := by
  induction m with
  | nil => simp at h
  | cons e rest ih =>
    rw [aGet_cons]
    by_cases he : e.1 = k
    · exact ⟨e.2, by rw [if_pos he]⟩
    · rw [if_neg he]
      apply ih
      simp only [List.map_cons, List.mem_cons] at h
      rcases h with h | h
      · exact absurd h.symm he
      · exact h

theorem exists_mem_of_aGet_eq_some {m : List (κ × α)} {k : κ} {v : α}
    (h : aGet m k = some v) : ∃ e ∈ m, e.1 = k ∧ e.2 = v := by
  unfold aGet at h
  cases hf : m.find? (fun e => e.1 = k) with
  | none => rw [hf] at h; simp at h
  | some e =>
    rw [hf] at h
    simp only [Option.map_some', Option.some.injEq] at h
    exact ⟨e, List.mem_of_find?_eq_some hf, by simpa using List.find?_some hf, h⟩

theorem aGet_aSet (m : List (κ × α)) (k k' : κ) (v : α) :
    aGet (aSet m k v) k' = if k' = k then some v else aGet m k' := by
  induction m with
  | nil =>
    by_cases h : k' = k
    · subst h; simp [aSet, aGet_cons]
    · rw [show aSet ([] : List (κ × α)) k v = [(k, v)] from rfl, aGet_cons,
          if_neg (fun hh : k = k' => h hh.symm), if_neg h]
  | cons e rest ih =>
    by_cases he : e.1 = k
    · rw [show aSet (e :: rest) k v = (k, v) :: rest from by simp [aSet, he]]
      by_cases h : k' = k
      · subst h; simp [aGet_cons]
      · rw [aGet_cons, aGet_cons, if_neg (fun hh : k = k' => h hh.symm), if_neg h,
            show e.1 = k from he, if_neg (fun hh : k = k' => h hh.symm)]
    · rw [show aSet (e :: rest) k v = e :: aSet rest k v from by simp [aSet, he]]
      by_cases h : k' = k
      · subst h
        rw [aGet_cons, if_neg he, ih]
        simp
      · rw [aGet_cons, ih, aGet_cons]
        simp [h]

theorem aGet_aDel (m : List (κ × α)) (k k' : κ) :
    aGet (aDel m k) k' = if k' = k then none else aGet m k' := by
  induction m with
  | nil => simp [aDel, aGet_nil]
  | cons e rest ih =>
    by_cases he : e.1 = k
    · rw [show aDel (e :: rest) k = aDel rest k from by simp [aDel, he], ih]
      by_cases h : k' = k
      · simp [h]
      · rw [if_neg h, if_neg h, aGet_cons, he,
            if_neg (show ¬ k = k' from fun hh => h hh.symm)]
    · rw [show aDel (e :: rest) k = e :: aDel rest k from by simp [aDel, he],
          aGet_cons, ih, aGet_cons]
      by_cases h : k' = k
      · subst h
        simp [show ¬ e.1 = k' from he]
      · simp [h]

end AListLemmas

theorem mem_aSet {κ α : Type} [DecidableEq κ] {m : List (κ × α)} {k : κ} {v : α} :
    ∀ e ∈ aSet m k v, e ∈ m ∨ e = (k, v) := by
  induction m with
  | nil =>
    intro e he
    simp only [aSet, List.mem_singleton] at he
    exact Or.inr he
  | cons e0 rest ih =>
    intro e he
    by_cases h0 : e0.1 = k
    · simp only [aSet, if_pos h0, List.mem_cons] at he
      rcases he with he | he
      · exact Or.inr he
      · exact Or.inl (List.mem_cons_of_mem _ he)
    · simp only [aSet, if_neg h0, List.mem_cons] at he
      rcases he with he | he
      · exact Or.inl (he ▸ List.mem_cons_self e0 rest)
      · rcases ih e he with h | h
        · exact Or.inl (List.mem_cons_of_mem _ h)
        · exact Or.inr h

theorem aGet_foldl_aDel {κ α : Type} [DecidableEq κ] (ks : List κ) :
    ∀ (m : List (κ × α)) (k : κ),
    aGet (ks.foldl (fun m k' => aDel m k') m) k = if k ∈ ks then none else aGet m k := by
  induction ks with
  | nil => intro m k; simp
  | cons k0 rest ih =>
    intro m k
    rw [List.foldl_cons, ih]
    by_cases hk : k ∈ rest
    · simp [hk]
    · rw [if_neg hk, aGet_aDel]
      by_cases h0 : k = k0
      · simp [h0]
      · simp [h0, hk]

theorem mem_of_mem_foldl_aDel {κ α : Type} [DecidableEq κ] (ks : List κ) :
    ∀ (m : List (κ × α)) (e : κ × α),
    e ∈ ks.foldl (fun m k => aDel m k) m → e ∈ m := by
  induction ks with
  | nil => intro m e he; exact he
  | cons k0 rest ih =>
    intro m e he
    rw [List.foldl_cons] at he
    exact List.mem_of_mem_filter (ih (aDel m k0) e he)

theorem derefD_append_last (h : List Rec) (r : Rec) :
    derefD (h ++ [r]) h.length = r := by
  rw [derefD, List.getD_eq_getElem?_getD, List.getElem?_append_right (le_refl _)]
  simp

theorem derefD_take_eq {h1 : List Rec} {n : Nat} {h2 : List Rec}
    (ht : h1.take n = h2) {a : Addr} (ha : a < n) :
    derefD h1 a = derefD h2 a := by
  rw [derefD, derefD, List.getD_eq_getElem?_getD, List.getD_eq_getElem?_getD, ← ht,
      List.getElem?_take_of_lt ha]

theorem aGet_eq_none_iff {κ α : Type} [DecidableEq κ] (m : List (κ × α)) (k : κ) :
    aGet m k = none ↔ ∀ e ∈ m, e.1 ≠ k := by
  induction m with
  | nil => simp [aGet_nil]
  | cons e0 rest ih =>
    rw [aGet_cons]
    by_cases h0 : e0.1 = k
    · simp [h0]
    · simp only [if_neg h0, ih, List.mem_cons]
      constructor
      · intro hall e he
        rcases he with he | he
        · exact he ▸ h0
        · exact hall e he
      · intro hall e he
        exact hall e (Or.inr he)

theorem ne_empty_of_not_falsy {o : Option String} (h : ¬ idFalsy o = true) :
    o.getD "" ≠ "" := by
  cases o with
  | none => simp [idFalsy] at h
  | some s =>
    simp only [idFalsy, decide_eq_true_eq] at h
    simpa using h

theorem compIdsAll_append (h : List Rec) (l1 l2 : List Comp) :
    compIdsAll h (l1 ++ l2) = compIdsAll h l1 ++ compIdsAll h l2 := by
  induction l1 with
  | nil => rfl
  | cons c cs ih => simp [compIdsAll, ih]

theorem mem_compIdsAll_iff (h : List Rec) (cs : List Comp) (i : String) :
    i ∈ compIdsAll h cs ↔ ∃ c ∈ cs, i ∈ compIds h c := by
  induction cs with
  | nil => simp [compIdsAll]
  | cons c cs ih => simp [compIdsAll, ih, List.mem_append]

theorem compIds_stable (c : Comp) {h h' : List Rec} (hpre : h'.take h.length = h)
    (hv : ∀ addrs, c = Comp.deleteSaved addrs → ∀ a ∈ addrs, a < h.length) :
    compIds h' c = compIds h c := by
  cases c with
  | resave addrs => rfl
  | deleteSaved addrs =>
    simp only [compIds]
    apply List.map_congr_left
    intro a ha
    rw [derefD_take_eq hpre (hv addrs rfl a ha)]

theorem compIdsAll_stable {h h' : List Rec} (hpre : h'.take h.length = h)
    (fns : List Comp)
    (hv : ∀ c ∈ fns, ∀ addrs, c = Comp.deleteSaved addrs → ∀ a ∈ addrs, a < h.length) :
    compIdsAll h' fns = compIdsAll h fns := by
  induction fns with
  | nil => rfl
  | cons c cs ih =>
    simp only [compIdsAll]
    rw [compIds_stable c hpre (hv c (List.mem_cons_self c cs)),
        ih (fun c' hc' => hv c' (List.mem_cons_of_mem _ hc'))]

theorem foldl_delete_state (rs : List Addr) : ∀ σ : MemState,
    rs.foldl (fun σ' a => {σ' with map := aDel σ'.map ((derefD σ'.heap a)._id.getD "")}) σ
      = {σ with map := (rs.foldl
          (fun m a => aDel m ((derefD σ.heap a)._id.getD "")) σ.map)} := by
  induction rs with
  | nil => intro σ; cases σ; rfl
  | cons a rest ih =>
    intro σ
    cases σ with
    | mk h m u n =>
      rw [List.foldl_cons, List.foldl_cons, ih]

theorem memDelete_eq (σ : MemState) (cond : Cond) :
    (memDelete σ cond).1
      = {σ with map := ((memSearch σ cond).foldl
          (fun m a => aDel m ((derefD σ.heap a)._id.getD "")) σ.map)} :=
  foldl_delete_state (memSearch σ cond) σ

theorem memDelete_heap (σ : MemState) (cond : Cond) :
    (memDelete σ cond).1.heap = σ.heap := by
  rw [memDelete_eq]

theorem coherent_memDelete (σ : MemState) (cond : Cond) (hcoh : Coherent σ) :
    Coherent (memDelete σ cond).1 := by
  intro e he
  rw [memDelete_eq] at he
  simp only at he
  rw [← List.foldl_map (fun a => (derefD σ.heap a)._id.getD "")
        (fun m k => aDel m k)] at he
  have hm : e ∈ σ.map := mem_of_mem_foldl_aDel _ σ.map e he
  rw [memDelete_eq]
  exact hcoh e hm

theorem aGet_memDelete_idIn (σ : MemState) (ids : List String) (hcoh : Coherent σ)
    (id : String) :
    aGet (memDelete σ (idIn ids)).1.map id
      = if id ∈ ids then none else aGet σ.map id := by
  rw [memDelete_eq]
  show aGet ((memSearch σ (idIn ids)).foldl _ σ.map) id = _
  rw [← List.foldl_map (fun a => (derefD σ.heap a)._id.getD "")
        (fun m k => aDel m k), aGet_foldl_aDel]
  by_cases hks : id ∈ (memSearch σ (idIn ids)).map
      (fun a => (derefD σ.heap a)._id.getD "")
  · rw [if_pos hks]
    obtain ⟨a, ha, hid⟩ := List.mem_map.mp hks
    have hc : idIn ids (derefD σ.heap a) = true := (List.mem_filter.mp ha).2
    unfold idIn at hc
    cases hd : (derefD σ.heap a)._id with
    | none => rw [hd] at hc; simp at hc
    | some i =>
      rw [hd] at hc
      simp only [List.contains_iff_exists_mem_beq] at hc
      have hi : i ∈ ids := by
        obtain ⟨i', hi', hbeq⟩ := hc
        exact (beq_iff_eq.mp hbeq) ▸ hi'
      rw [hd] at hid
      simp only [Option.getD_some] at hid
      rw [if_pos (hid ▸ hi)]
  · rw [if_neg hks]
    by_cases hin : id ∈ ids
    · rw [if_pos hin]
      cases hg : aGet σ.map id with
      | none => rfl
      | some a =>
        exfalso
        obtain ⟨e, he, hek, hea⟩ := exists_mem_of_aGet_eq_some hg
        obtain ⟨hlt, hid⟩ := hcoh e he
        apply hks
        refine List.mem_map.mpr ⟨e.2, ?_, ?_⟩
        · refine List.mem_filter.mpr ⟨List.mem_map.mpr ⟨e, he, rfl⟩, ?_⟩
          unfold idIn
          rw [hid, hek]
          simp [hin]
        · rw [hid, hek]
          rfl
    · rw [if_neg hin]

/-- Replaying a log of save-compensations only deletes: the heap is
untouched and each id present is removed exactly when some compensation
covers it. -/
theorem foldl_applyComp_deletes (cs : List Comp) : ∀ σ : MemState,
    Coherent σ →
    (∀ c ∈ cs, ∃ addrs, c = Comp.deleteSaved addrs) →
    (cs.foldl applyComp σ).heap = σ.heap ∧
    (∀ id, aGet (cs.foldl applyComp σ).map id
      = if id ∈ compIdsAll σ.heap cs then none else aGet σ.map id) := by
  induction cs with
  | nil => intro σ _ _; exact ⟨rfl, fun id => by simp [compIdsAll]⟩
  | cons c rest ih =>
    intro σ hcoh hdel
    obtain ⟨addrs, hc⟩ := hdel c (List.mem_cons_self c rest)
    subst hc
    rw [List.foldl_cons]
    have hstep : applyComp σ (Comp.deleteSaved addrs)
        = (memDelete σ (idIn (compIds σ.heap (Comp.deleteSaved addrs)))).1 := rfl
    have hheap1 : (applyComp σ (Comp.deleteSaved addrs)).heap = σ.heap := by
      rw [hstep, memDelete_heap]
    have hcoh1 : Coherent (applyComp σ (Comp.deleteSaved addrs)) := by
      rw [hstep]; exact coherent_memDelete σ _ hcoh
    obtain ⟨ihh, ihget⟩ := ih (applyComp σ (Comp.deleteSaved addrs)) hcoh1
      (fun c' hc' => hdel c' (List.mem_cons_of_mem _ hc'))
    constructor
    · rw [ihh, hheap1]
    · intro id
      rw [ihget id, hheap1]
      by_cases h1 : id ∈ compIdsAll σ.heap rest
      · rw [if_pos h1, if_pos (by simp [compIdsAll, h1])]
      · rw [if_neg h1, hstep, aGet_memDelete_idIn σ _ hcoh id]
        by_cases h2 : id ∈ compIds σ.heap (Comp.deleteSaved addrs)
        · rw [if_pos h2, if_pos (by simp [compIdsAll, h2])]
        · rw [if_neg h2, if_neg (by simp [compIdsAll, h2, h1])]

theorem runFrom_append (l : List Comp) (c : Comp) (σ : MemState) :
    ∀ k, k ≤ l.length → runFrom (l ++ [c]) σ k = runFrom l σ k := by
  intro k
  induction k generalizing σ with
  | zero => intro _; rfl
  | succ k ih =>
    intro hk
    have hkl : k < l.length := hk
    simp only [runFrom]
    rw [List.getD_append _ _ _ _ hkl, ih _ (le_of_lt hkl)]

/-- The indexed downward loop of `rollback` visits the compensation list
exactly in reverse order. -/
theorem runFrom_eq_foldl_reverse (l : List Comp) (σ : MemState) :
    runFrom l σ l.length = l.reverse.foldl applyComp σ := by
  induction l using List.reverseRecOn generalizing σ with
  | nil => rfl
  | append_singleton l c ih =>
    have hlen : (l ++ [c]).length = l.length + 1 := by simp
    rw [hlen]
    simp only [runFrom]
    rw [List.getD_append_right _ _ _ _ (le_refl l.length)]
    simp only [Nat.sub_self, List.getD]
    rw [runFrom_append l c _ l.length (le_refl _), ih, List.reverse_append]
    rfl

/-- C4: `rollback()` applies the logged compensations in strict reverse
order of registration (the downward indexed loop equals a sequential left
fold over the reversed log, each compensation finishing before the next
starts), then clears the log, marks the transaction inactive and — via
`end()` — removes it from the registry. -/
theorem c4_rollback_reverse_order (s : Sys) :
    (sysRollback s).mem = s.txn.fns.reverse.foldl applyComp s.mem ∧
    (sysRollback s).txn.fns = [] ∧
    (sysRollback s).txn.begun = false ∧
    aGet (sysRollback s).reg s.txn.tid = none := by
  refine ⟨runFrom_eq_foldl_reverse _ _, rfl, rfl, ?_⟩
  show aGet (aDel s.reg s.txn.tid) s.txn.tid = none
  rw [aGet_aDel, if_pos rfl]

/-- C5: when the 30-second inactivity timer fires, the callback only calls
`end()`: the wrapped collection is untouched (no compensation is applied —
it does not roll back), the in-flight log is dropped unapplied (the
transaction is deregistered and inactive, so the log can never be replayed
through the registry). -/
theorem c5_timer_fire_discards_log (s : Sys) :
    (sysTimerFire s).mem = s.mem ∧
    (sysTimerFire s).txn.fns = s.txn.fns ∧
    (sysTimerFire s).txn.begun = false ∧
    (sysTimerFire s).txn.timer = false ∧
    aGet (sysTimerFire s).reg s.txn.tid = none := by
  refine ⟨rfl, rfl, rfl, rfl, ?_⟩
  show aGet (aDel s.reg s.txn.tid) s.txn.tid = none
  rw [aGet_aDel, if_pos rfl]

/-- C7: `end()` marks the transaction inactive, removes it from the
process-wide registry keyed by its id, cancels the timer, and changes
nothing else: the compensation log, the id and the collection pointer are
left exactly as they were, and no other registry entry is touched. -/
theorem c7_end_frame (t : TxnObj) (reg : Registry) :
    (txnEnd t reg).1.begun = false ∧
    (txnEnd t reg).1.timer = false ∧
    (txnEnd t reg).1.fns = t.fns ∧
    (txnEnd t reg).1.tid = t.tid ∧
    (txnEnd t reg).1.coll = t.coll ∧
    ∀ id', aGet (txnEnd t reg).2 id' = if id' = t.tid then none else aGet reg id' :=
  ⟨rfl, rfl, rfl, rfl, rfl, fun id' => aGet_aDel reg t.tid id'⟩

/-- C3, counterexample: deleting a missing id through the `Transaction`
wrapper returns `true`, not `false` — the wrapper short-circuits a missing
id to a silent success without consulting the backend. -/
theorem c3_counterexample_wrapper_returns_true :
    (sysDeleteById (initSys emptyMem "t1") "missing").2 ≠ false := by decide

/-- C3, amended: deleting an id that has no record leaves the collection
and the undo log unchanged, so a subsequent rollback is a no-op for that
call; the backend returns `false`, but the `Transaction` wrapper
short-circuits to `true` without calling the backend. -/
theorem c3_missing_id_noop (s : Sys) (id : String)
    (h : aGet s.mem.map id = none) :
    memDeleteById s.mem id = (s.mem, false) ∧ sysDeleteById s id = (s, true) := by
  constructor
  · simp [memDeleteById, h]
  · simp [sysDeleteById, memGetById, h]

/-- C3, witness for the amended theorem at a concrete input. -/
theorem c3_missing_id_noop_witness :
    aGet emptyMem.map "x" = none ∧
    (memDeleteById emptyMem "x" = (emptyMem, false) ∧
     sysDeleteById (initSys emptyMem "t1") "x" = (initSys emptyMem "t1", true)) :=
  ⟨rfl, c3_missing_id_noop (initSys emptyMem "t1") "x" rfl⟩

/-- C2, the failing run: update id "1" inside an active transaction, then
roll back.  `getById` returns the post-update record — not the pre-update
snapshot — because the snapshot the `Transaction` fetched by its
search-by-id-set is a list of live references into the collection, and the
backend's `deepAssign` mutates the referenced record in place before the
snapshot is re-saved. -/
theorem c2_rollback_returns_updated_record :
    getByIdVal (sysRollback (sysUpdate (initSys johnMem "t1")
        [⟨"1", [("name", .str "Johnny"), ("age", .int 31)]⟩]).1).mem "1"
      = some ⟨some "1", [("name", .str "Johnny"), ("age", .int 31)]⟩ ∧
    some ⟨some "1", [("name", .str "Johnny"), ("age", .int 31)]⟩
      ≠ some johnRec := by
  constructor
  · rfl
  · decide

/-- An errored `update` fold keeps its state and error untouched. -/
theorem foldl_memUpdateStep_err (items : List UpdItem) (σ : MemState) (e : String) :
    items.foldl memUpdateStep (σ, some e) = (σ, some e) := by
  induction items with
  | nil => rfl
  | cons it rest ih => rw [List.foldl_cons]; exact ih

/-- A single `update` step never makes a missing id present. -/
theorem memUpdate1_preserves_none (σ : MemState) (it : UpdItem) (id : String)
    (h : aGet σ.map id = none) : aGet (memUpdate1 σ it).1.map id = none := by
  unfold memUpdate1
  cases hg : aGet σ.map it.uid with
  | none => simpa [hg]
  | some a =>
    simp only [hg]
    rw [aGet_aSet]
    by_cases hid : id = it.uid
    · subst hid; rw [h] at hg; exact absurd hg (by simp)
    · rw [if_neg hid]; exact h

/-- When some targeted id has no record, `MemoryCollection.update`
throws. -/
theorem memUpdate_err_of_missing (items : List UpdItem) (σ : MemState)
    (h : ∃ it ∈ items, aGet σ.map it.uid = none) :
    (memUpdate σ items).2.isSome := by
  induction items generalizing σ with
  | nil => simp at h
  | cons it rest ih =>
    obtain ⟨jt, hmem, hnone⟩ := h
    show ((it :: rest).foldl memUpdateStep (σ, none)).2.isSome
    rw [List.foldl_cons]
    rcases List.mem_cons.mp hmem with heq | hrest
    · have h1 : memUpdateStep (σ, none) it
          = (σ, some ("Not found item in collection by id " ++ it.uid)) := by
        simp [memUpdateStep, memUpdate1, heq ▸ hnone]
      rw [h1, foldl_memUpdateStep_err]
      rfl
    · have hstep : memUpdateStep (σ, none) it = memUpdate1 σ it := rfl
      rw [hstep]
      cases h2 : memUpdate1 σ it with
      | mk σ' err =>
        cases err with
        | some e =>
          rw [foldl_memUpdateStep_err]
          rfl
        | none =>
          have hnone' : aGet σ'.map jt.uid = none := by
            have := memUpdate1_preserves_none σ it jt.uid hnone
            rw [h2] at this
            exact this
          exact ih σ' ⟨jt, hrest, hnone'⟩

/-- C8: an `update` through the transaction whose targeted id set includes
an id with no record in the backend surfaces the backend's "not found"
error directly to the caller, and no compensation is appended to the undo
log for the failed call — the throw happens before the push. -/
theorem c8_update_missing_id_errors (s : Sys) (items : List UpdItem)
    (h : ∃ it ∈ items, aGet s.mem.map it.uid = none) :
    (sysUpdate s items).2.isSome ∧ (sysUpdate s items).1.txn.fns = s.txn.fns := by
  have herr := memUpdate_err_of_missing items s.mem h
  unfold sysUpdate
  cases he : (memUpdate s.mem items).2 with
  | none => rw [he] at herr; simp at herr
  | some e => simp [he]

/-- C8, witness at a concrete input. -/
theorem c8_update_missing_id_errors_witness :
    (∃ it ∈ [(⟨"zz", []⟩ : UpdItem)], aGet emptyMem.map it.uid = none) ∧
    ((sysUpdate (initSys emptyMem "t1") [⟨"zz", []⟩]).2.isSome ∧
     (sysUpdate (initSys emptyMem "t1") [⟨"zz", []⟩]).1.txn.fns
        = (initSys emptyMem "t1").txn.fns) :=
  ⟨by decide, c8_update_missing_id_errors (initSys emptyMem "t1") [⟨"zz", []⟩] (by decide)⟩

/-- C6: `Transaction.get(id, collection)` returns the registered
transaction for the id when one exists — re-pointed at the supplied
collection with its undo log, active state and timer preserved — and
otherwise constructs a new transaction (whose constructor runs `begin()`:
active, timer armed, empty log), registers it, and returns it; in both
cases the registry afterwards maps the id to the returned instance. -/
theorem c6_get_registered_or_new (id : String) (c : Nat) (reg : Registry) :
    aGet (txnGet id c reg).2 id = some (txnGet id c reg).1 ∧
    (txnGet id c reg).1.coll = c ∧
    (match aGet reg id with
     | some t =>
       (txnGet id c reg).1.fns = t.fns ∧ (txnGet id c reg).1.begun = t.begun ∧
       (txnGet id c reg).1.timer = t.timer ∧ (txnGet id c reg).1.tid = t.tid
     | none =>
       (txnGet id c reg).1.fns = [] ∧ (txnGet id c reg).1.begun = true ∧
       (txnGet id c reg).1.timer = true ∧ (txnGet id c reg).1.tid = id) := by
  cases h : aGet reg id with
  | some t =>
    simp only [txnGet, h]
    simp [aGet_aSet]
  | none =>
    simp only [txnGet, h, txnBegin]
    simp [aGet_aSet]

theorem assignF_append (t u : Fields) (e : String × Value) :
    assignF t (u ++ [e]) = setF (assignF t u) e.1 e.2 := by
  simp [assignF, List.foldl_append]

/-- Shallow merge resolves a key to the later object's binding when it has
one, and to the earlier accumulated object's binding otherwise: later
merges overwrite earlier ones on key collision. -/
theorem lookupF_assignF (t u : Fields) (k : String) :
    lookupF (assignF t u) k = (lookupF (assignF [] u) k).or (lookupF t k) := by
  induction u using List.reverseRecOn with
  | nil => simp [assignF, lookupF, aGet]
  | append_singleton u e ih =>
    rw [assignF_append, assignF_append]
    show aGet (aSet (assignF t u) e.1 e.2) k
      = (aGet (aSet (assignF [] u) e.1 e.2) k).or (lookupF t k)
    rw [aGet_aSet, aGet_aSet]
    by_cases hk : k = e.1
    · simp [hk, Option.or]
    · rw [if_neg hk, if_neg hk]; exact ih

/-- The join loop of `_handleFromValue` computes the spec's fold whenever
every joined collection has a projection registered. -/
theorem join_fold_eq (s : SelectM) (item : Value) :
    ∀ (l : List (Nat × (Value → Value))), (∀ p ∈ l, p.1 ∈ s.exposeMap.map (·.1)) →
      ∀ (init : Fields),
      l.foldl (fun res p =>
          assignVOpt res ((aGet s.exposeMap p.1).map (fun f => f (p.2 item)))) init
        = l.foldl (fun res p => assignF res (ownFields (projOf s p.1 (p.2 item)))) init := by
  intro l
  induction l with
  | nil => intro _ _; rfl
  | cons p rest ih =>
    intro hl init
    rw [List.foldl_cons, List.foldl_cons]
    obtain ⟨f, hf⟩ := aGet_isSome_of_mem_keys s.exposeMap p.1 (hl p (List.mem_cons_self p rest))
    have hp : projOf s p.1 = f := by rw [projOf, hf]; rfl
    rw [hf, hp]
    exact ih (fun q hq => hl q (List.mem_cons_of_mem p hq)) _

/-- C9: `toOne()` is absent exactly when `searchOne` on the source matches
nothing; otherwise it returns the one object built per the spec: start
from the empty object, shallow-merge the source's projection of the
matched record, then per joined collection in join-registration order
fetch, project, and shallow-merge — and shallow merging is
later-overwrites-earlier on key collision (second conjunct). -/
theorem c9_toOne_builds_spec_result (s : SelectM) (records : List Value)
    (hwf : SelWF s) :
    toOne s records = (searchOneL records s.cond).map (specBuildOne s) ∧
    (∀ t u k, lookupF (assignF t u) k = (lookupF (assignF [] u) k).or (lookupF t k)) := by
  refine ⟨?_, lookupF_assignF⟩
  unfold toOne
  cases hs : searchOneL records s.cond with
  | none => rfl
  | some v =>
    show some (handleFromValue s v) = some (specBuildOne s v)
    congr 1
    obtain ⟨hfrom, hjoin⟩ := hwf
    obtain ⟨f0, hf0⟩ := aGet_isSome_of_mem_keys s.exposeMap s._from hfrom
    have hp0 : projOf s s._from = f0 := by rw [projOf, hf0]; rfl
    unfold handleFromValue specBuildOne
    rw [hf0, hp0]
    exact join_fold_eq s v s.joinMap hjoin _

/-- C9, witness: the theorem applied at a concrete query and source. -/
theorem c9_toOne_witness :
    SelWF c9sel ∧
    (toOne c9sel c9recs = (searchOneL c9recs c9sel.cond).map (specBuildOne c9sel) ∧
     (∀ t u k, lookupF (assignF t u) k = (lookupF (assignF [] u) k).or (lookupF t k))) :=
  ⟨⟨by decide, by decide⟩,
   c9_toOne_builds_spec_result c9sel c9recs ⟨by decide, by decide⟩⟩

theorem option_id_of_not_falsy {o : Option String} (h : ¬ idFalsy o = true) :
    o = some (o.getD "") := by
  cases o with
  | none => simp [idFalsy] at h
  | some s => rfl

theorem allocList_spec (rs : List Rec) : ∀ σ : MemState,
    (allocList σ rs).1 = {σ with heap := σ.heap ++ rs} ∧
    (allocList σ rs).2 = List.range' σ.heap.length rs.length := by
  induction rs with
  | nil =>
    intro σ
    cases σ
    exact ⟨by simp [allocList], rfl⟩
  | cons r rest ih =>
    intro σ
    obtain ⟨h1, h2⟩ := ih {σ with heap := σ.heap ++ [r]}
    constructor
    · show (allocList {σ with heap := σ.heap ++ [r]} rest).1 = _
      rw [h1]
      simp
    · show σ.heap.length :: (allocList {σ with heap := σ.heap ++ [r]} rest).2 = _
      rw [h2]
      simp [List.range'_succ]

theorem memSave1_heap_length (σ : MemState) (a : Addr) :
    (memSave1 σ a).heap.length = σ.heap.length := by
  unfold memSave1
  cases hf : idFalsy (derefD σ.heap a)._id <;> simp [hf, heapSet]

theorem memSave1_heap_append (σ : MemState) (ext : List Rec) (a : Addr)
    (ha : a < σ.heap.length) :
    memSave1 {σ with heap := σ.heap ++ ext} a
      = {memSave1 σ a with heap := (memSave1 σ a).heap ++ ext} := by
  have hde : derefD (σ.heap ++ ext) a = derefD σ.heap a := by
    rw [derefD, derefD, List.getD_eq_getElem?_getD, List.getD_eq_getElem?_getD,
        List.getElem?_append_left ha]
  cases σ with
  | mk h m u n =>
    unfold memSave1
    simp only at hde ⊢
    rw [hde]
    cases hf : idFalsy (derefD h a)._id
    · simp [hf]
    · simp [hf, heapSet, List.set_append_left _ _ ha]

theorem saveStep_heap_length (σ : MemState) (r : Rec) :
    (saveStep σ r).heap.length = σ.heap.length + 1 := by
  unfold saveStep
  rw [memSave1_heap_length]
  simp

theorem memSaveItems_cons (σ : MemState) (r : Rec) (rest : List Rec) :
    memSaveItems σ (r :: rest)
      = ((memSaveItems (saveStep σ r) rest).1,
         σ.heap.length :: (memSaveItems (saveStep σ r) rest).2) := by
  obtain ⟨hA1, hA2⟩ := allocList_spec (r :: rest) σ
  obtain ⟨hB1, hB2⟩ := allocList_spec rest (saveStep σ r)
  have hlen : (saveStep σ r).heap.length = σ.heap.length + 1 := saveStep_heap_length σ r
  have hstep : memSave1 {σ with heap := σ.heap ++ (r :: rest)} σ.heap.length
      = {saveStep σ r with heap := (saveStep σ r).heap ++ rest} := by
    have hassoc : ({σ with heap := σ.heap ++ (r :: rest)} : MemState)
        = {({σ with heap := σ.heap ++ [r]} : MemState) with
            heap := (σ.heap ++ [r]) ++ rest} := by
      cases σ
      simp
    rw [hassoc]
    exact memSave1_heap_append {σ with heap := σ.heap ++ [r]} rest σ.heap.length
      (by simp)
  have hheapB : (memSaveItems (saveStep σ r) rest).1
      = (memSave {saveStep σ r with heap := (saveStep σ r).heap ++ rest}
          (List.range' (σ.heap.length + 1) rest.length)).1 := by
    show (memSave (allocList (saveStep σ r) rest).1 (allocList (saveStep σ r) rest).2).1 = _
    rw [hB1, hB2, hlen]
  have hsnd : (memSaveItems (saveStep σ r) rest).2
      = List.range' (σ.heap.length + 1) rest.length := by
    show (allocList (saveStep σ r) rest).2 = _
    rw [hB2, hlen]
  show memSave (allocList σ (r :: rest)).1 (allocList σ (r :: rest)).2 = _
  rw [hA1, hA2]
  rw [show List.range' σ.heap.length (r :: rest).length
        = σ.heap.length :: List.range' (σ.heap.length + 1) rest.length from by
      simp [List.range'_succ]]
  rw [memSave]
  rw [List.foldl_cons, hstep]
  refine Prod.ext ?_ ?_
  · rw [hheapB]
    rfl
  · rw [hsnd]

theorem saveStep_eq (σ : MemState) (r : Rec) :
    saveStep σ r =
      if idFalsy r._id then
        {σ with heap := σ.heap ++ [{r with _id := some (σ.uuid σ.next)}],
                map := aSet σ.map (σ.uuid σ.next) σ.heap.length,
                next := σ.next + 1}
      else
        {σ with heap := σ.heap ++ [r],
                map := aSet σ.map (r._id.getD "") σ.heap.length} := by
  have hd : derefD (σ.heap ++ [r]) σ.heap.length = r := derefD_append_last σ.heap r
  cases σ with
  | mk h m u n =>
    unfold saveStep memSave1
    simp only at hd ⊢
    rw [hd]
    cases hf : idFalsy r._id
    · simp [hf]
    · simp only [hf, if_pos, heapSet]
      rw [List.set_append_right _ _ (le_refl _)]
      simp

theorem saveStep_uuid (σ : MemState) (r : Rec) : (saveStep σ r).uuid = σ.uuid := by
  rw [saveStep_eq]
  cases hf : idFalsy r._id <;> simp [hf]

theorem saveStep_next (σ : MemState) (r : Rec) :
    (saveStep σ r).next = if idFalsy r._id then σ.next + 1 else σ.next := by
  rw [saveStep_eq]
  cases hf : idFalsy r._id <;> simp [hf]

theorem effId_zero (σ : MemState) (r : Rec) (rest : List Rec) :
    effId σ (r :: rest) 0 = if idFalsy r._id then σ.uuid σ.next else r._id.getD "" := by
  unfold effId falsyCountBefore
  simp

theorem saveStep_map (σ : MemState) (r : Rec) (rest : List Rec) :
    (saveStep σ r).map = aSet σ.map (effId σ (r :: rest) 0) σ.heap.length := by
  rw [saveStep_eq, effId_zero]
  cases hf : idFalsy r._id <;> simp [hf]

theorem saveStep_heap (σ : MemState) (r : Rec) (rest : List Rec) :
    (saveStep σ r).heap = σ.heap ++ [filledRec σ (r :: rest) 0] := by
  rw [saveStep_eq]
  unfold filledRec
  rw [show (r :: rest).getD 0 default = r from rfl, effId_zero]
  cases hf : idFalsy r._id
  · simp only [hf, if_neg, Bool.false_eq_true, if_false]
    rw [← option_id_of_not_falsy (by rw [hf]; exact Bool.false_ne_true)]
  · simp [hf]

theorem falsyCountBefore_succ (r : Rec) (rest : List Rec) (j : Nat) :
    falsyCountBefore (r :: rest) (j + 1)
      = (if idFalsy r._id then 1 else 0) + falsyCountBefore rest j := by
  unfold falsyCountBefore
  rw [List.take_succ_cons, List.filter_cons]
  cases hf : idFalsy r._id
  · simp [hf]
  · simp [hf]
    omega

theorem effId_succ (σ : MemState) (r : Rec) (rest : List Rec) (j : Nat) :
    effId σ (r :: rest) (j + 1) = effId (saveStep σ r) rest j := by
  unfold effId
  rw [show (r :: rest).getD (j + 1) default = rest.getD j default from rfl,
      saveStep_uuid, saveStep_next, falsyCountBefore_succ]
  cases hf2 : idFalsy (rest.getD j default)._id
  · simp [hf2]
  · cases hf : idFalsy r._id <;> simp only [hf, hf2, if_pos, if_neg, Bool.false_eq_true, if_false, if_true]
    · congr 1
      omega
    · congr 1
      omega

theorem filledRec_succ (σ : MemState) (r : Rec) (rest : List Rec) (j : Nat) :
    filledRec σ (r :: rest) (j + 1) = filledRec (saveStep σ r) rest j := by
  unfold filledRec
  rw [effId_succ]
  rfl

/-- The master induction for `MemoryCollection.save`: the returned
references, the per-item stored records, the map lookups of
last-occurrence ids, and the stability of untouched ids. -/
theorem memSaveItems_master (items : List Rec) : ∀ σ : MemState,
    (memSaveItems σ items).1.heap.length = σ.heap.length + items.length ∧
    (memSaveItems σ items).1.heap.take σ.heap.length = σ.heap ∧
    (memSaveItems σ items).2 = List.range' σ.heap.length items.length ∧
    (memSaveItems σ items).1.uuid = σ.uuid ∧
    (∀ j, j < items.length →
      derefD (memSaveItems σ items).1.heap (σ.heap.length + j) = filledRec σ items j) ∧
    (∀ j, j < items.length →
      (∀ l, j < l → l < items.length → effId σ items l ≠ effId σ items j) →
      aGet (memSaveItems σ items).1.map (effId σ items j) = some (σ.heap.length + j)) ∧
    (∀ id', (∀ j, j < items.length → effId σ items j ≠ id') →
      aGet (memSaveItems σ items).1.map id' = aGet σ.map id') ∧
    (∀ e ∈ (memSaveItems σ items).1.map,
      e ∈ σ.map ∨ ∃ j, j < items.length ∧ e = (effId σ items j, σ.heap.length + j)) := by
  induction items with
  | nil =>
    intro σ
    refine ⟨rfl, List.take_length σ.heap, rfl, rfl, ?_, ?_, ?_, ?_⟩
    · intro j hj; exact absurd hj (by simp)
    · intro j hj; exact absurd hj (by simp)
    · intro id' _; rfl
    · intro e he; exact Or.inl he
  | cons r rest ih =>
    intro σ
    obtain ⟨ih1, ih2, ih3, ih4, ih5, ih6, ih7, ih8⟩ := ih (saveStep σ r)
    have hlen : (saveStep σ r).heap.length = σ.heap.length + 1 := saveStep_heap_length σ r
    rw [memSaveItems_cons]
    refine ⟨?_, ?_, ?_, ?_, ?_, ?_, ?_, ?_⟩
    · show (memSaveItems (saveStep σ r) rest).1.heap.length = _
      rw [ih1, hlen]
      simp [Nat.add_assoc, Nat.add_comm 1 rest.length]
    · show (memSaveItems (saveStep σ r) rest).1.heap.take σ.heap.length = σ.heap
      have h1 : (memSaveItems (saveStep σ r) rest).1.heap.take σ.heap.length
          = ((memSaveItems (saveStep σ r) rest).1.heap.take
              (saveStep σ r).heap.length).take σ.heap.length := by
        rw [List.take_take]
        congr 1
        omega
      rw [h1, ih2, saveStep_heap σ r rest, List.take_left' rfl]
    · show σ.heap.length :: (memSaveItems (saveStep σ r) rest).2 = _
      rw [ih3, hlen, show (r :: rest).length = rest.length + 1 from rfl,
          List.range'_succ]
    · show (memSaveItems (saveStep σ r) rest).1.uuid = _
      rw [ih4, saveStep_uuid]
    · intro j hj
      show derefD (memSaveItems (saveStep σ r) rest).1.heap (σ.heap.length + j)
        = filledRec σ (r :: rest) j
      cases j with
      | zero =>
        have hlt : σ.heap.length < (saveStep σ r).heap.length := by omega
        rw [Nat.add_zero, derefD_take_eq ih2 hlt, saveStep_heap σ r rest,
            derefD_append_last]
      | succ j' =>
        have hj' : j' < rest.length := by
          simpa using Nat.lt_of_succ_lt_succ hj
        rw [show σ.heap.length + (j' + 1) = (saveStep σ r).heap.length + j' from by omega,
            ih5 j' hj', filledRec_succ]
    · intro j hj hlast
      show aGet (memSaveItems (saveStep σ r) rest).1.map (effId σ (r :: rest) j)
        = some (σ.heap.length + j)
      cases j with
      | zero =>
        have hstab : ∀ j', j' < rest.length
            → effId (saveStep σ r) rest j' ≠ effId σ (r :: rest) 0 := by
          intro j' hj'
          rw [← effId_succ]
          exact hlast (j' + 1) (Nat.succ_pos j') (by simpa using Nat.succ_lt_succ hj')
        rw [ih7 _ hstab, saveStep_map σ r rest, aGet_aSet, if_pos rfl, Nat.add_zero]
      | succ j' =>
        have hj' : j' < rest.length := by simpa using Nat.lt_of_succ_lt_succ hj
        have hlast' : ∀ l, j' < l → l < rest.length
            → effId (saveStep σ r) rest l ≠ effId (saveStep σ r) rest j' := by
          intro l hl1 hl2
          rw [← effId_succ, ← effId_succ]
          exact hlast (l + 1) (Nat.succ_lt_succ hl1) (by simpa using Nat.succ_lt_succ hl2)
        rw [effId_succ, ih6 j' hj' hlast', hlen]
        congr 1
        omega
    · intro id' hno
      show aGet (memSaveItems (saveStep σ r) rest).1.map id' = aGet σ.map id'
      have hno' : ∀ j', j' < rest.length → effId (saveStep σ r) rest j' ≠ id' := by
        intro j' hj'
        rw [← effId_succ]
        exact hno (j' + 1) (by simpa using Nat.succ_lt_succ hj')
      rw [ih7 _ hno', saveStep_map σ r rest, aGet_aSet,
          if_neg (fun hh => hno 0 (Nat.succ_pos _) hh.symm)]
    · intro e he
      rcases ih8 e he with hmem | ⟨j', hj', hej⟩
      · rw [saveStep_map σ r rest] at hmem
        rcases mem_aSet e hmem with hold | hnew
        · exact Or.inl hold
        · exact Or.inr ⟨0, Nat.succ_pos _, by rw [hnew, Nat.add_zero]⟩
      · refine Or.inr ⟨j' + 1, by simpa using Nat.succ_lt_succ hj', ?_⟩
        rw [hej, effId_succ, hlen, Nat.add_assoc, Nat.add_comm 1 j']

/-- C10: `MemoryCollection.save` is an upsert that never merges.  The
returned array is the input items in input order (`range'` of the
references), each stored and returned with its `_id` filled in — a fresh
UUID from the stream for items with a falsy `_id`, the carried `_id`
otherwise (`filledRec`/`effId`).  An id whose last occurrence in the batch
is item `j` is afterwards mapped to exactly item `j`'s record, wholesale:
the previously stored record's fields do not survive.  Ids not saved in
the batch are untouched. -/
theorem c10_save_upsert_never_merges (σ : MemState) (items : List Rec)
    (hvalid : ∀ e ∈ σ.map, e.2 < σ.heap.length) :
    (memSaveItems σ items).2 = List.range' σ.heap.length items.length ∧
    (∀ j, j < items.length →
      derefD (memSaveItems σ items).1.heap (σ.heap.length + j) = filledRec σ items j) ∧
    (∀ j, j < items.length →
      (∀ l, j < l → l < items.length → effId σ items l ≠ effId σ items j) →
      getByIdVal (memSaveItems σ items).1 (effId σ items j)
        = some (filledRec σ items j)) ∧
    (∀ id', (∀ j, j < items.length → effId σ items j ≠ id') →
      getByIdVal (memSaveItems σ items).1 id' = getByIdVal σ id') := by
  obtain ⟨h1, h2, h3, h4, h5, h6, h7, h8⟩ := memSaveItems_master items σ
  refine ⟨h3, h5, ?_, ?_⟩
  · intro j hj hlast
    rw [getByIdVal, memGetById, h6 j hj hlast, Option.map_some', h5 j hj]
  · intro id' hno
    rw [getByIdVal, getByIdVal, memGetById, memGetById, h7 id' hno]
    cases hg : aGet σ.map id' with
    | none => rfl
    | some a =>
      obtain ⟨e, he, -, hev⟩ := exists_mem_of_aGet_eq_some hg
      have ha : a < σ.heap.length := hev ▸ hvalid e he
      rw [Option.map_some', Option.map_some', derefD_take_eq h2 ha]

/-- C10, witness at a concrete input: a batch overwriting the existing id
"1" and inserting one item without `_id`. -/
theorem c10_save_upsert_witness :
    (∀ e ∈ johnMem.map, e.2 < johnMem.heap.length) ∧
    ((memSaveItems johnMem c10items).2
        = List.range' johnMem.heap.length c10items.length ∧
     (∀ j, j < c10items.length →
       derefD (memSaveItems johnMem c10items).1.heap (johnMem.heap.length + j)
         = filledRec johnMem c10items j) ∧
     (∀ j, j < c10items.length →
       (∀ l, j < l → l < c10items.length →
         effId johnMem c10items l ≠ effId johnMem c10items j) →
       getByIdVal (memSaveItems johnMem c10items).1 (effId johnMem c10items j)
         = some (filledRec johnMem c10items j)) ∧
     (∀ id', (∀ j, j < c10items.length → effId johnMem c10items j ≠ id') →
       getByIdVal (memSaveItems johnMem c10items).1 id' = getByIdVal johnMem id')) :=
  ⟨by decide, c10_save_upsert_never_merges johnMem c10items (by decide)⟩

/-- One `save` call through an active transaction preserves the C1
invariant, provided the caller's items never carry an id that predates the
transaction and the UUID stream is fresh. -/
theorem saveInv_step (σ0 : MemState) (s : Sys) (items : List Rec)
    (hinv : SaveInv σ0 s)
    (huuid : ∀ n, σ0.uuid n ∉ mapIds σ0.map)
    (hitems : ∀ r ∈ items, ∀ i, r._id = some i → i ≠ "" → i ∉ mapIds σ0.map) :
    SaveInv σ0 (sysSave s items).1 := by
  obtain ⟨I1, I2, I3, I4, I5, I6, I7⟩ := hinv
  by_cases h0 : items = []
  · subst h0
    exact ⟨I1, I2, I3, I4, I5, I6, I7⟩
  · obtain ⟨h1, h2, h3, h4, h5, h6, h7, h8⟩ := memSaveItems_master items s.mem
    have hmemeq : (sysSave s items).1.mem = (memSaveItems s.mem items).1 := rfl
    have hn0 : σ0.heap.length ≤ s.mem.heap.length := by
      have hl := congrArg List.length I1
      rw [List.length_take] at hl
      omega
    have heff : ∀ j, j < items.length → effId s.mem items j ∉ mapIds σ0.map := by
      intro j hj
      unfold effId
      by_cases hf : idFalsy ((items.getD j default)._id) = true
      · rw [if_pos hf, I6]
        exact huuid _
      · rw [if_neg hf]
        have hmem : items.getD j default ∈ items := by
          have hgd : items.getD j default = items.get ⟨j, hj⟩ := by
            rw [List.getD_eq_getElem?_getD, List.getElem?_eq_getElem hj]
            rfl
          rw [hgd]
          exact items.get_mem _ _
        exact hitems _ hmem _ (option_id_of_not_falsy hf) (ne_empty_of_not_falsy hf)
    have hl2 : (memSaveItems s.mem items).2.length = items.length := by
      rw [h3]; simp
    have hne : (memSaveItems s.mem items).2.length ≠ 0 := by
      rw [hl2]
      exact fun hh => h0 (List.length_eq_zero.mp hh)
    have hfns : (sysSave s items).1.txn.fns
        = s.txn.fns ++ [Comp.deleteSaved (memSaveItems s.mem items).2] := by
      show (if (memSaveItems s.mem items).2.length ≠ 0 ∧ s.txn.begun then _ else _) = _
      rw [if_pos ⟨hne, I5⟩]
    have hpre : (memSaveItems s.mem items).1.heap.take σ0.heap.length = σ0.heap := by
      have ht := List.take_take σ0.heap.length s.mem.heap.length
        (memSaveItems s.mem items).1.heap
      rw [h2, Nat.min_eq_left hn0] at ht
      rw [← ht]
      exact I1
    have hvold : ∀ c ∈ s.txn.fns, ∀ addrs, c = Comp.deleteSaved addrs →
        ∀ a ∈ addrs, a < s.mem.heap.length := by
      intro c hc addrs hceq a ha
      obtain ⟨⟨addrs', hceq', hb⟩, -⟩ := I4 c hc
      have : addrs = addrs' := by
        rw [hceq] at hceq'
        exact Comp.deleteSaved.inj hceq'
      exact hb a (this ▸ ha)
    have hcompstab : compIdsAll (memSaveItems s.mem items).1.heap s.txn.fns
        = compIdsAll s.mem.heap s.txn.fns :=
      compIdsAll_stable h2 s.txn.fns hvold
    have hnewids : ∀ i, i ∈ compIds (memSaveItems s.mem items).1.heap
        (Comp.deleteSaved (memSaveItems s.mem items).2) →
        ∃ j, j < items.length ∧ i = effId s.mem items j := by
      intro i hi
      simp only [compIds, List.mem_map] at hi
      obtain ⟨a, ha, hai⟩ := hi
      rw [h3, List.mem_range'] at ha
      obtain ⟨j, hj, haj⟩ := ha
      refine ⟨j, hj, ?_⟩
      rw [← hai, haj, Nat.one_mul, h5 j hj]
      rfl
    have hnewids' : ∀ j, j < items.length →
        effId s.mem items j ∈ compIds (memSaveItems s.mem items).1.heap
          (Comp.deleteSaved (memSaveItems s.mem items).2) := by
      intro j hj
      simp only [compIds, List.mem_map]
      refine ⟨σ0.heap.length + (s.mem.heap.length - σ0.heap.length + j), ?_, ?_⟩
      · rw [h3, List.mem_range']
        exact ⟨j, hj, by omega⟩
      · have hrw : σ0.heap.length + (s.mem.heap.length - σ0.heap.length + j)
            = s.mem.heap.length + j := by omega
        rw [hrw, h5 j hj]
        rfl
    refine ⟨hpre, ?_, ?_, ?_, I5, ?_, ?_⟩
    · intro id hid
      have hno : ∀ j, j < items.length → effId s.mem items j ≠ id :=
        fun j hj hh => heff j hj (hh ▸ hid)
      show aGet (memSaveItems s.mem items).1.map id = aGet σ0.map id
      rw [h7 id hno]
      exact I2 id hid
    · intro id hid hnn
      rw [hmemeq, hfns, compIdsAll_append]
      have hnn' : aGet (memSaveItems s.mem items).1.map id ≠ none := hnn
      cases hg : aGet (memSaveItems s.mem items).1.map id with
      | none => exact absurd hg hnn'
      | some a =>
        obtain ⟨e, hem, hek, hea⟩ := exists_mem_of_aGet_eq_some hg
        rcases h8 e hem with hold | ⟨j, hj, hej⟩
        · have holdget : aGet s.mem.map id ≠ none := by
            rw [Ne, aGet_eq_none_iff]
            intro hall
            exact hall e hold hek
          refine List.mem_append.mpr (Or.inl ?_)
          rw [hcompstab]
          exact I3 id hid holdget
        · refine List.mem_append.mpr (Or.inr ?_)
          have hidj : id = effId s.mem items j := by
            rw [← hek, hej]
          simp only [compIdsAll, List.append_nil]
          rw [hidj]
          exact hnewids' j hj
    · intro c hc
      rw [hfns] at hc
      rw [hmemeq]
      rcases List.mem_append.mp hc with hcold | hcnew
      · obtain ⟨⟨addrs, hceq, hb⟩, hids⟩ := I4 c hcold
        refine ⟨⟨addrs, hceq, fun a ha => ?_⟩, ?_⟩
        · rw [h1]
          exact lt_of_lt_of_le (hb a ha) (Nat.le_add_right _ _)
        · rw [compIds_stable c h2 (fun addrs' hceq' a ha =>
            hvold c hcold addrs' hceq' a ha)]
          exact hids
      · rw [List.mem_singleton] at hcnew
        subst hcnew
        refine ⟨⟨(memSaveItems s.mem items).2, rfl, fun a ha => ?_⟩, ?_⟩
        · rw [h3, List.mem_range'] at ha
          obtain ⟨j, hj, haj⟩ := ha
          rw [h1, haj]
          simpa using Nat.add_lt_add_left hj s.mem.heap.length
        · intro i hi
          obtain ⟨j, hj, hij⟩ := hnewids i hi
          rw [hij]
          exact heff j hj
    · show (memSaveItems s.mem items).1.uuid = σ0.uuid
      rw [h4, I6]
    · intro e he
      rw [hmemeq] at he ⊢
      rcases h8 e he with hold | ⟨j, hj, hej⟩
      · obtain ⟨hb, hidc⟩ := I7 e hold
        refine ⟨by rw [h1]; exact lt_of_lt_of_le hb (Nat.le_add_right _ _), ?_⟩
        rw [derefD_take_eq h2 hb]
        exact hidc
      · constructor
        · rw [hej, h1]
          simpa using hj
        · rw [hej, h5 j hj]
          rfl

/-- A freshly constructed transaction over a coherent collection satisfies
the C1 invariant. -/
theorem saveInv_init (σ0 : MemState) (tid : String) (hcoh : Coherent σ0) :
    SaveInv σ0 (initSys σ0 tid) := by
  refine ⟨List.take_length σ0.heap, fun id _ => rfl, ?_, ?_, rfl, rfl, hcoh⟩
  · intro id hid hnn
    exfalso
    apply hnn
    rw [aGet_eq_none_iff]
    intro e he hek
    exact hid (by unfold mapIds; exact List.mem_map.mpr ⟨e, he, hek⟩)
  · intro c hc
    exact absurd hc (List.not_mem_nil c)

/-- A whole sequence of `save` calls preserves the C1 invariant. -/
theorem saveInv_runSaves (σ0 : MemState) (calls : List (List Rec)) :
    ∀ s : Sys, SaveInv σ0 s →
    (∀ n, σ0.uuid n ∉ mapIds σ0.map) →
    (∀ items ∈ calls, ∀ r ∈ items, ∀ i, r._id = some i → i ≠ "" →
      i ∉ mapIds σ0.map) →
    SaveInv σ0 (runSaves s calls) := by
  induction calls with
  | nil => intro s hinv _ _; exact hinv
  | cons items rest ih =>
    intro s hinv hu hit
    exact ih _ (saveInv_step σ0 s items hinv hu (hit items (List.mem_cons_self _ _)))
      hu (fun its h => hit its (List.mem_cons_of_mem _ h))

/-- C1, amended: for a transaction consisting of a sequence of `save`
calls followed immediately by `rollback()`, the wrapped collection's
record set (each id's record, read through `getById`) after the rollback
equals its record set before the transaction began — provided no saved
item carries an `_id` already present in the collection when the
transaction began (fresh UUIDs never collide with existing ids by
uniqueness).  For an item whose `_id` did exist before the transaction,
the delete-by-id compensation erases the record instead of restoring the
overwritten one (see the counterexample). -/
theorem c1_save_rollback_net_zero (σ0 : MemState) (tid : String)
    (calls : List (List Rec))
    (hcoh : Coherent σ0)
    (huuid : ∀ n, σ0.uuid n ∉ mapIds σ0.map)
    (hitems : ∀ items ∈ calls, ∀ r ∈ items, ∀ i, r._id = some i → i ≠ "" →
      i ∉ mapIds σ0.map) :
    ∀ id, getByIdVal (sysRollback (runSaves (initSys σ0 tid) calls)).mem id
      = getByIdVal σ0 id := by
  obtain ⟨I1, I2, I3, I4, I5, I6, I7⟩ :=
    saveInv_runSaves σ0 calls (initSys σ0 tid) (saveInv_init σ0 tid hcoh) huuid hitems
  have hroll : (sysRollback (runSaves (initSys σ0 tid) calls)).mem
      = ((runSaves (initSys σ0 tid) calls).txn.fns.reverse).foldl applyComp
          (runSaves (initSys σ0 tid) calls).mem :=
    runFrom_eq_foldl_reverse _ _
  have hshape : ∀ c ∈ (runSaves (initSys σ0 tid) calls).txn.fns.reverse,
      ∃ addrs, c = Comp.deleteSaved addrs := by
    intro c hc
    obtain ⟨⟨addrs, hceq, -⟩, -⟩ := I4 c (List.mem_reverse.mp hc)
    exact ⟨addrs, hceq⟩
  obtain ⟨hh, hget⟩ := foldl_applyComp_deletes
    (runSaves (initSys σ0 tid) calls).txn.fns.reverse
    (runSaves (initSys σ0 tid) calls).mem I7 hshape
  intro id
  rw [getByIdVal, getByIdVal, memGetById, memGetById, hroll, hget id, hh]
  by_cases hid : id ∈ mapIds σ0.map
  · have hnin : id ∉ compIdsAll (runSaves (initSys σ0 tid) calls).mem.heap
        (runSaves (initSys σ0 tid) calls).txn.fns.reverse := by
      intro hin
      obtain ⟨c, hc, hic⟩ := (mem_compIdsAll_iff _ _ _).mp hin
      obtain ⟨-, hids⟩ := I4 c (List.mem_reverse.mp hc)
      exact hids id hic hid
    rw [if_neg hnin, I2 id hid]
    cases hg : aGet σ0.map id with
    | none => rfl
    | some a =>
      obtain ⟨e, he, hek, hea⟩ := exists_mem_of_aGet_eq_some hg
      obtain ⟨hb, -⟩ := hcoh e he
      rw [Option.map_some', Option.map_some', derefD_take_eq I1 (hea ▸ hb)]
  · have hnone0 : aGet σ0.map id = none := by
      rw [aGet_eq_none_iff]
      intro e he hek
      exact hid (by unfold mapIds; exact List.mem_map.mpr ⟨e, he, hek⟩)
    rw [hnone0]
    by_cases hin : id ∈ compIdsAll (runSaves (initSys σ0 tid) calls).mem.heap
        (runSaves (initSys σ0 tid) calls).txn.fns.reverse
    · rw [if_pos hin]
      rfl
    · rw [if_neg hin]
      have hnonef : aGet (runSaves (initSys σ0 tid) calls).mem.map id = none := by
        by_contra hne
        apply hin
        have hmm := I3 id hid hne
        rw [mem_compIdsAll_iff] at hmm ⊢
        obtain ⟨c, hc, hic⟩ := hmm
        exact ⟨c, List.mem_reverse.mpr hc, hic⟩
      rw [hnonef]
      rfl

/-- C1, witness for the amended theorem: one `save` of a fresh item on an
empty collection, rolled back. -/
theorem c1_save_rollback_witness :
    Coherent emptyMem ∧
    (∀ n, emptyMem.uuid n ∉ mapIds emptyMem.map) ∧
    (∀ items ∈ [[(⟨none, [("y", .int 2)]⟩ : Rec)]], ∀ r ∈ items, ∀ i,
      r._id = some i → i ≠ "" → i ∉ mapIds emptyMem.map) ∧
    (∀ id, getByIdVal (sysRollback (runSaves (initSys emptyMem "t1")
        [[⟨none, [("y", .int 2)]⟩]])).mem id = getByIdVal emptyMem id) := by
  have hcoh : Coherent emptyMem := fun e he => absurd he (List.not_mem_nil e)
  have huuid : ∀ n, emptyMem.uuid n ∉ mapIds emptyMem.map := by
    intro n
    exact List.not_mem_nil _
  have hitems : ∀ items ∈ [[(⟨none, [("y", .int 2)]⟩ : Rec)]], ∀ r ∈ items, ∀ i,
      (r : Rec)._id = some i → i ≠ "" → i ∉ mapIds emptyMem.map := by
    intro items hits r hr i hi _
    rw [List.mem_singleton] at hits
    subst hits
    rw [List.mem_singleton] at hr
    subst hr
    exact absurd hi (by simp)
  exact ⟨hcoh, huuid, hitems,
    c1_save_rollback_net_zero emptyMem "t1" [[⟨none, [("y", .int 2)]⟩]]
      hcoh huuid hitems⟩

/-- C1, counterexample to the claim as stated: saving an item whose `_id`
"1" already exists in the collection and rolling back does not restore the
overwritten record — the delete-by-id compensation erases it, so the
record set differs from the one before the transaction began. -/
theorem c1_counterexample_existing_id :
    getByIdVal (sysRollback (runSaves (initSys johnMem "t1")
        [[⟨some "1", [("x", .int 2)]⟩]])).mem "1" ≠ getByIdVal johnMem "1" := by
  decide

end JsColl
